import Mathlib

/-!
Verification development for the bsky.watch labeler core.

The definitions below are a shallow embedding of the Go sources:
the label log is a list of entries (the "log" table, ordered by seq),
the database queries of core_logic.go, server.go, subscribe.go and
query.go are modelled as pure list operations, and the bolt key codec
of keys.go is modelled on Nat byte lists.
-/

namespace Labeler

/-- Log record, mirroring the gorm model in model.go.  Optional string
fields (cid, exp) use the empty string for "absent", and neg defaults to
false, exactly as FromLabel materialises them. -/
structure Entry where
  seq : Int
  cts : String
  uri : String
  val : String
  src : String
  cid : String
  exp : String
  neg : Bool
deriving DecidableEq

/-- The identity tuple used for dedup/negation: the nested map keys
(src, val, uri, cid) of dedupeAndNegateEntries. -/
def Entry.key (e : Entry) : String × String × String × String :=
  (e.src, e.val, e.uri, e.cid)

/-- The SQL predicate of writeLabel's lookup:
src = ? and val = ? and uri = ? and cid = ?. -/
def sameIdent (a b : Entry) : Bool :=
  a.src == b.src && a.val == b.val && a.uri == b.uri && a.cid == b.cid

/-- The loop body of dedupeAndNegateEntries (core_logic.go), walking the
input newest-first with the skip set threaded through.  A negation marks
its key as skipped; a key already skipped is dropped; otherwise the
entry is emitted and its key marked. -/
def dedupeLoop : List Entry → List (String × String × String × String) → List Entry
  | [], _ => []
  | e :: rest, skip =>
    let skip1 := if e.neg then e.key :: skip else skip
    if e.key ∈ skip1 then dedupeLoop rest skip1
    else e :: dedupeLoop rest (e.key :: skip1)

/-- dedupeAndNegateEntries from core_logic.go: iterate the entries in
reverse (from the last element down to the first) with an initially
empty skip set. -/
def dedupeAndNegateEntries (entries : List Entry) : List Entry :=
  dedupeLoop entries.reverse []

/-- The query for the largest stored seq (0 when the table is empty):
Select seq, Order seq desc, Limit 1, Pluck. -/
def lastSeq (log : List Entry) : Int :=
  log.foldr (fun e m => max e.seq m) 0

/-- The row selected by Order seq desc, Limit 1 over a result set: an
entry with the maximal seq, none when the set is empty. -/
def maxSeqEntry : List Entry → Option Entry
  | [] => none
  | e :: rest =>
    match maxSeqEntry rest with
    | none => some e
    | some m => if m.seq > e.seq then some m else some e

/-- writeLabel from core_logic.go, as a pure transition on the log.
It looks up the newest entry with the same identity tuple (and
seq ≤ current max), decides noOp exactly as the Go code does, and on a
write appends the new entry at seq = max + 1 (the DB-assigned key).
Returns (updated, new log). -/
def writeLabel (log : List Entry) (newLabel : Entry) : Bool × List Entry :=
  let lastKey := lastSeq log
  let found := maxSeqEntry (log.filter (fun x => sameIdent x newLabel && decide (x.seq ≤ lastKey)))
  let noOp :=
    match found with
    | none => newLabel.neg
    | some e => !((e.neg != newLabel.neg) || (e.exp != newLabel.exp))
  if noOp then (false, log)
  else (true, log ++ [{ newLabel with seq := lastKey + 1 }])

/-- The subset of comatproto.LabelDefs_Label that AddLabel consumes;
pointer fields are Options. -/
structure Label where
  src : String
  uri : String
  cid : Option String
  val : String
  neg : Option Bool
  cts : String
  exp : Option String
  ver : Option Int
deriving DecidableEq

/-- FromLabel from model.go: convert a label into a log entry, with nil
pointers becoming the zero values. -/
def entryFromLabel (seq : Int) (l : Label) : Entry :=
  { seq := seq
    cts := l.cts
    uri := l.uri
    val := l.val
    src := l.src
    cid := l.cid.getD ""
    exp := l.exp.getD ""
    neg := l.neg.getD false }

/-- AddLabel from server.go.  The allowed set is modelled as the list
SetAllowedLabels was called with (membership equals the map lookup).
now stands for time.Now().Format(RFC3339).  Steps, in source order:
the allow-list check (performed whenever the allow-list is non-empty,
with no exemption for negations), defaulting src to the server identity
and rejecting an empty result, stamping cts, then writeLabel. -/
def addLabel (did : String) (allowed : List String) (now : String)
    (log : List Entry) (label : Label) : Except String (Bool × List Entry) :=
  if allowed.length > 0 && !(allowed.contains label.val) then
    Except.error ("we are not allowed to apply the label")
  else
    let src := if label.src = "" then did else label.src
    if src = "" then Except.error ("missing src")
    else Except.ok (writeLabel log (entryFromLabel 0 { label with src := src, cts := now }))

/-- Query request: uriPatterns and optional sources (query.go). -/
structure QueryReq where
  uriPatterns : List String
  sources : List String
deriving DecidableEq

/-- The row filter of Server.query (query.go): uri in uriPatterns, and
src in sources when sources is non-empty; then the collapse. -/
def query (log : List Entry) (q : QueryReq) : List Entry :=
  dedupeAndNegateEntries
    (log.filter (fun e =>
      q.uriPatterns.contains e.uri && (q.sources.isEmpty || q.sources.contains e.src)))

/-- The catch-up / wake-up scan of streamLabels (subscribe.go):
Where seq > c, Order seq asc (the log is kept in ascending seq order). -/
def scanAfter (log : List Entry) (c : Int) : List Entry :=
  log.filter (fun e => decide (c < e.seq))

/-- The future-cursor test of streamLabels: on an empty store a cursor
above zero is in the future; otherwise the cursor is in the future when
no entry has seq ≥ cursor. -/
def isFutureCursor (log : List Entry) (cursor : Int) : Bool :=
  if log.isEmpty then decide (0 < cursor)
  else (log.filter (fun e => decide (cursor ≤ e.seq))).isEmpty

/-- The bytes of the literal websocket message sent on a future cursor,
namely the Go string given in subscribe.go (hex A1 62 6F 70 20 followed
by A1 65 65 72 72 6F 72 6C 46 75 74 75 72 65 43 75 72 73 6F 72). -/
def futureCursorErrorBytes : List Nat :=
  [0xA1, 0x62, 0x6F, 0x70, 0x20,
   0xA1, 0x65, 0x65, 0x72, 0x72, 0x6F, 0x72,
   0x6C, 0x46, 0x75, 0x74, 0x75, 0x72, 0x65, 0x43, 0x75, 0x72, 0x73, 0x6F, 0x72]

/-- A frame on the subscription stream: either one label message
(sendLabel) or an error message with raw bytes. -/
inductive Frame where
  | label (e : Entry)
  | err (bytes : List Nat)
deriving DecidableEq

/-- The entry carried by a label frame, if any. -/
def Frame.entryOf? : Frame → Option Entry
  | Frame.label e => some e
  | Frame.err _ => none

/-- The initial phase of streamLabels for a given cursor: the frames
written before entering the live-tail loop, and whether the connection
stays open (false means the function returns, closing the socket).
With cursor ≥ 0 a future cursor produces the single error frame and a
close; otherwise the catch-up emits every entry with seq > cursor.
A negative cursor skips straight to live tail. -/
def streamInit (log : List Entry) (cursor : Int) : List Frame × Bool :=
  if 0 ≤ cursor then
    if isFutureCursor log cursor then ([Frame.err futureCursorErrorBytes], false)
    else ((scanAfter log cursor).map Frame.label, true)
  else ([], true)

/-- The entries emitted over a whole connection: the initial phase
followed, when the connection stayed open, by one wake-up scan per
snapshot of the log.  Each wake-up scan in subscribe.go queries
seq > cursor, the cursor the subscription started from. -/
def streamEntries (log0 : List Entry) (cursor : Int) (snapshots : List (List Entry)) : List Entry :=
  if (streamInit log0 cursor).2 then
    (streamInit log0 cursor).1.filterMap Frame.entryOf?
      ++ (snapshots.map (fun log => scanAfter log cursor)).flatten
  else
    (streamInit log0 cursor).1.filterMap Frame.entryOf?

/-- Minimal big-endian byte string of n (big.Int.Bytes): empty for 0,
otherwise the bytes of n / 256 followed by n % 256.  Structural fuel
variant; fuel ≥ n suffices since n / 256 < n for n > 0. -/
def natToBEBytesAux : Nat → Nat → List Nat
  | 0, _ => []
  | f + 1, n => if n = 0 then [] else natToBEBytesAux f (n / 256) ++ [n % 256]

/-- Minimal big-endian byte string of n. -/
def natToBEBytes (n : Nat) : List Nat :=
  natToBEBytesAux n n

/-- encodeKey from keys.go (for the non-negative int64 keys the store
uses): the body length as one byte, then the minimal big-endian body. -/
def encodeKey (n : Nat) : List Nat :=
  (natToBEBytes n).length % 256 :: natToBEBytes n

/-- Big-endian value of a byte string (big.Int.SetBytes). -/
def beBytesToNat : List Nat → Nat
  | [] => 0
  | c :: rest => c * 256 ^ rest.length + beBytesToNat rest

/-- decodeKey from keys.go, with its checks in source order: empty
input, length byte consistent with the input length, non-zero body
length, minimal encoding (no leading zero byte), and the value fitting
into an int64. -/
def decodeKey (b : List Nat) : Except String Nat :=
  match b with
  | [] => Except.error ("empty key")
  | l :: rest =>
    if rest.length ≠ l then Except.error ("mismatching key length")
    else if l = 0 then Except.error ("zero length key")
    else if rest.headD 0 = 0 then Except.error ("non-minimal key encoding")
    else if 2 ^ 63 ≤ beBytesToNat rest then Except.error ("key does not fit into int64")
    else Except.ok (beBytesToNat rest)

/-- Whether a decode result is an error. -/
def isErr : Except String Nat → Bool
  | Except.error _ => true
  | Except.ok _ => false

/-- First element of the list whose identity tuple is k (helper for
characterising the reverse walk of the collapse function). -/
def firstWithKey (k : String × String × String × String) : List Entry → Option Entry
  | [] => none
  | e :: rest => if e.key = k then some e else firstWithKey k rest

/-- A concrete positive label entry, for witnesses. -/
def entryA : Entry :=
  { seq := 1, cts := "2024-01-01T00:00:00Z", uri := "did:foo", val := "a",
    src := "did:example", cid := "", exp := "", neg := false }

/-- A second concrete entry with a different value, at seq 2. -/
def entryB : Entry :=
  { entryA with seq := 2, val := "b" }

/-- A concrete negation label whose value is outside the allow-list
used in the corresponding theorem. -/
def labelNegOther : Label :=
  { src := "did:src", uri := "did:foo", cid := none, val := "other",
    neg := some true, cts := "", exp := none, ver := none }

/-- A concrete label with an empty value and an empty src. -/
def labelEmptyVal : Label :=
  { src := "", uri := "did:foo", cid := none, val := "",
    neg := none, cts := "", exp := none, ver := none }

/-- A concrete label duplicating entryA (same identity, neg and exp). -/
def labelDupA : Label :=
  { src := "did:example", uri := "did:foo", cid := none, val := "a",
    neg := none, cts := "", exp := none, ver := none }

/-- The entry AddLabel persists for labelEmptyVal on an empty log. -/
def entryEmptyVal : Entry :=
  { seq := 1, cts := "T", uri := "did:foo", val := "",
    src := "did:example", cid := "", exp := "", neg := false }

/-- Unfolding dedupeLoop on a negation: the key is marked and the entry
itself is dropped (it is in the just-extended skip set). -/
theorem dedupeLoop_cons_neg (e : Entry) (rest : List Entry)
    (skip : List (String × String × String × String)) (hn : e.neg = true) :
    dedupeLoop (e :: rest) skip = dedupeLoop rest (e.key :: skip) := by
  simp [dedupeLoop, hn]

/-- Unfolding dedupeLoop on a non-negation whose key is already
skipped: the entry is dropped. -/
theorem dedupeLoop_cons_mem (e : Entry) (rest : List Entry)
    (skip : List (String × String × String × String))
    (hn : e.neg = false) (hs : e.key ∈ skip) :
    dedupeLoop (e :: rest) skip = dedupeLoop rest skip := by
  simp [dedupeLoop, hn, hs]

/-- Unfolding dedupeLoop on a fresh non-negation: the entry is emitted
and its key marked. -/
theorem dedupeLoop_cons_new (e : Entry) (rest : List Entry)
    (skip : List (String × String × String × String))
    (hn : e.neg = false) (hs : e.key ∉ skip) :
    dedupeLoop (e :: rest) skip = e :: dedupeLoop rest (e.key :: skip) := by
  simp [dedupeLoop, hn, hs]

/-- Membership in the collapse walk: an entry is kept iff it is not a
negation, its key is not in the incoming skip set, and it is the first
entry of the (newest-first) list bearing its key. -/
theorem mem_dedupeLoop (l : List Entry)
    (skip : List (String × String × String × String)) (a : Entry) :
    a ∈ dedupeLoop l skip ↔
      a.neg = false ∧ a.key ∉ skip ∧ firstWithKey a.key l = some a := by
  induction l generalizing skip with
  | nil => simp [dedupeLoop, firstWithKey]
  | cons e rest ih =>
    by_cases hn : e.neg = true
    · rw [dedupeLoop_cons_neg e rest skip hn, ih]
      by_cases hk : e.key = a.key
      · constructor
        · rintro ⟨h1, h2, h3⟩
          exact absurd (by rw [← hk]; exact List.mem_cons_self _ _) h2
        · rintro ⟨h1, h2, h3⟩
          rw [firstWithKey, if_pos hk] at h3
          have hea : e = a := by injection h3
          rw [hea, h1] at hn
          exact absurd hn (by simp)
      · rw [firstWithKey, if_neg hk]
        constructor
        · rintro ⟨h1, h2, h3⟩
          refine ⟨h1, fun hmem => h2 (List.mem_cons_of_mem _ hmem), h3⟩
        · rintro ⟨h1, h2, h3⟩
          refine ⟨h1, ?_, h3⟩
          intro hmem
          rcases List.mem_cons.mp hmem with h | h
          · exact hk h.symm
          · exact h2 h
    · have hn' : e.neg = false := by
        cases h : e.neg
        · rfl
        · exact absurd h hn
      by_cases hs : e.key ∈ skip
      · rw [dedupeLoop_cons_mem e rest skip hn' hs, ih]
        by_cases hk : e.key = a.key
        · constructor
          · rintro ⟨h1, h2, h3⟩
            exact absurd (hk ▸ hs) h2
          · rintro ⟨h1, h2, h3⟩
            exact absurd (hk ▸ hs) h2
        · rw [firstWithKey, if_neg hk]
      · rw [dedupeLoop_cons_new e rest skip hn' hs, List.mem_cons, ih]
        by_cases hk : e.key = a.key
        · rw [firstWithKey, if_pos hk]
          constructor
          · rintro (h | ⟨h1, h2, h3⟩)
            · exact ⟨h ▸ hn', h ▸ hs, by rw [h]⟩
            · exact absurd (by rw [← hk]; exact List.mem_cons_self _ _) h2
          · rintro ⟨h1, h2, h3⟩
            have hea : e = a := by injection h3
            exact Or.inl hea.symm
        · rw [firstWithKey, if_neg hk]
          constructor
          · rintro (h | ⟨h1, h2, h3⟩)
            · exact absurd (by rw [h]) hk
            · refine ⟨h1, fun hmem => h2 (List.mem_cons_of_mem _ hmem), h3⟩
          · rintro ⟨h1, h2, h3⟩
            refine Or.inr ⟨h1, ?_, h3⟩
            intro hmem
            rcases List.mem_cons.mp hmem with h | h
            · exact hk h.symm
            · exact h2 h

/-- On a strictly seq-ascending list, the first match of the reversed
list is exactly the maximal-seq entry bearing the key. -/
theorem firstWithKey_reverse (xs : List Entry)
    (k : String × String × String × String) (a : Entry) :
    xs.Pairwise (fun p q => p.seq < q.seq) →
      (firstWithKey k xs.reverse = some a ↔
        a ∈ xs ∧ a.key = k ∧ ∀ b ∈ xs, b.key = k → b.seq ≤ a.seq) := by
  induction xs using List.reverseRecOn with
  | nil => intro _; simp [firstWithKey]
  | append_singleton xs x ih =>
    intro hs
    rw [List.pairwise_append] at hs
    obtain ⟨h1, _, h3⟩ := hs
    have hlt : ∀ b ∈ xs, b.seq < x.seq := fun b hb => h3 b hb x (List.mem_singleton_self x)
    rw [List.reverse_append, List.reverse_singleton, List.singleton_append, firstWithKey]
    by_cases hk : x.key = k
    · rw [if_pos hk]
      constructor
      · intro h
        have hxa : x = a := by injection h
        subst hxa
        refine ⟨List.mem_append_right _ (List.mem_singleton_self x), hk, ?_⟩
        intro b hb _
        rcases List.mem_append.mp hb with h | h
        · exact le_of_lt (hlt b h)
        · rw [List.mem_singleton.mp h]
      · rintro ⟨hmem, hak, hmax⟩
        have hxle : x.seq ≤ a.seq :=
          hmax x (List.mem_append_right _ (List.mem_singleton_self x)) hk
        rcases List.mem_append.mp hmem with h | h
        · exact absurd hxle (not_le_of_lt (hlt a h))
        · rw [List.mem_singleton.mp h]
    · rw [if_neg hk, ih h1]
      constructor
      · rintro ⟨hmem, hak, hmax⟩
        refine ⟨List.mem_append_left _ hmem, hak, ?_⟩
        intro b hb hbk
        rcases List.mem_append.mp hb with h | h
        · exact hmax b h hbk
        · exact absurd ((List.mem_singleton.mp h) ▸ hbk) hk
      · rintro ⟨hmem, hak, hmax⟩
        have hmem' : a ∈ xs := by
          rcases List.mem_append.mp hmem with h | h
          · exact h
          · exact absurd ((List.mem_singleton.mp h) ▸ hak) hk
        exact ⟨hmem', hak, fun b hb hbk => hmax b (List.mem_append_left _ hb) hbk⟩

/-- Claim C2: on a list given in ascending seq order, the collapse
function keeps exactly the entries that are the newest record for their
(src, val, uri, cid) identity tuple and are not negations. -/
theorem C2_collapse_newest_positive (xs : List Entry)
    (hs : xs.Pairwise (fun p q => p.seq < q.seq)) (a : Entry) :
    a ∈ dedupeAndNegateEntries xs ↔
      a ∈ xs ∧ a.neg = false ∧ ∀ b ∈ xs, b.key = a.key → b.seq ≤ a.seq := by
  rw [dedupeAndNegateEntries, mem_dedupeLoop, firstWithKey_reverse xs a.key a hs]
  simp only [List.not_mem_nil, not_false_iff, true_and]
  tauto

/-- Claim C2 witness. -/
theorem C2_collapse_newest_positive_witness :
    ([Labeler.entryA, Labeler.entryB].Pairwise (fun p q => p.seq < q.seq)) ∧
      (Labeler.entryA ∈ dedupeAndNegateEntries [Labeler.entryA, Labeler.entryB] ↔
        Labeler.entryA ∈ [Labeler.entryA, Labeler.entryB] ∧ Labeler.entryA.neg = false ∧
          ∀ b ∈ [Labeler.entryA, Labeler.entryB], b.key = Labeler.entryA.key →
            b.seq ≤ Labeler.entryA.seq) :=
  ⟨by decide, C2_collapse_newest_positive [Labeler.entryA, Labeler.entryB] (by decide) Labeler.entryA⟩

/-- The collapse walk emits lists with pairwise distinct identity
tuples. -/
theorem dedupeLoop_pairwise_key (l : List Entry)
    (skip : List (String × String × String × String)) :
    (dedupeLoop l skip).Pairwise (fun p q => p.key ≠ q.key) := by
  induction l generalizing skip with
  | nil => simp [dedupeLoop]
  | cons e rest ih =>
    by_cases hn : e.neg = true
    · rw [dedupeLoop_cons_neg e rest skip hn]
      exact ih _
    · have hn' : e.neg = false := by
        cases h : e.neg
        · rfl
        · exact absurd h hn
      by_cases hs : e.key ∈ skip
      · rw [dedupeLoop_cons_mem e rest skip hn' hs]
        exact ih _
      · rw [dedupeLoop_cons_new e rest skip hn' hs]
        refine List.Pairwise.cons ?_ (ih _)
        intro b hb
        have hmem := ((mem_dedupeLoop rest (e.key :: skip) b).mp hb).2.1
        intro hEq
        exact hmem (by rw [← hEq]; exact List.mem_cons_self _ _)

/-- Claim C10: the collapse function never emits a negation and never
emits two entries with the same identity tuple, and the same holds for
the entry list a query assembles before signing. -/
theorem C10_collapse_invariants (xs : List Entry) :
    ((∀ e ∈ dedupeAndNegateEntries xs, e.neg = false) ∧
      (dedupeAndNegateEntries xs).Pairwise (fun p q => p.key ≠ q.key)) ∧
    ∀ req : QueryReq,
      (∀ e ∈ query xs req, e.neg = false) ∧
        (query xs req).Pairwise (fun p q => p.key ≠ q.key) := by
  refine ⟨⟨?_, dedupeLoop_pairwise_key _ _⟩, ?_⟩
  · intro e he
    exact ((mem_dedupeLoop _ _ e).mp he).1
  · intro req
    refine ⟨?_, dedupeLoop_pairwise_key _ _⟩
    intro e he
    exact ((mem_dedupeLoop _ _ e).mp he).1

/-- The collapse walk is the identity on a list of non-negations with
pairwise distinct keys, none of them already skipped. -/
theorem dedupeLoop_eq_self (l : List Entry)
    (skip : List (String × String × String × String))
    (h1 : ∀ a ∈ l, a.neg = false ∧ a.key ∉ skip)
    (h2 : l.Pairwise (fun p q => p.key ≠ q.key)) :
    dedupeLoop l skip = l := by
  induction l generalizing skip with
  | nil => simp [dedupeLoop]
  | cons e rest ih =>
    obtain ⟨hen, hes⟩ := h1 e (List.mem_cons_self _ _)
    rw [dedupeLoop_cons_new e rest skip hen hes]
    rw [List.pairwise_cons] at h2
    congr 1
    refine ih _ ?_ h2.2
    intro a ha
    refine ⟨(h1 a (List.mem_cons_of_mem _ ha)).1, ?_⟩
    intro hmem
    rcases List.mem_cons.mp hmem with h | h
    · exact h2.1 a ha h.symm
    · exact (h1 a (List.mem_cons_of_mem _ ha)).2 h

/-- Claim C9: applying the collapse function twice yields the same
effective set of entries as applying it once. -/
theorem C9_collapse_idempotent (xs : List Entry) (a : Entry) :
    a ∈ dedupeAndNegateEntries (dedupeAndNegateEntries xs) ↔
      a ∈ dedupeAndNegateEntries xs := by
  have hfix : dedupeAndNegateEntries (dedupeAndNegateEntries xs)
      = (dedupeAndNegateEntries xs).reverse := by
    rw [show dedupeAndNegateEntries (dedupeAndNegateEntries xs)
        = dedupeLoop (dedupeAndNegateEntries xs).reverse [] from rfl]
    refine dedupeLoop_eq_self _ _ ?_ ?_
    · intro b hb
      rw [List.mem_reverse] at hb
      refine ⟨((mem_dedupeLoop _ _ b).mp hb).1, by simp⟩
    · rw [List.pairwise_reverse]
      exact (dedupeLoop_pairwise_key _ _).imp fun h => Ne.symm h
  rw [hfix, List.mem_reverse]

/-- lastSeq unfolds over cons. -/
theorem lastSeq_cons (x : Entry) (l : List Entry) :
    lastSeq (x :: l) = max x.seq (lastSeq l) := rfl

/-- Every entry of the log has seq at most lastSeq. -/
theorem seq_le_lastSeq (log : List Entry) : ∀ e ∈ log, e.seq ≤ lastSeq log := by
  induction log with
  | nil => simp
  | cons x l ih =>
    intro e he
    rcases List.mem_cons.mp he with h | h
    · rw [h, lastSeq_cons]
      exact le_max_left _ _
    · rw [lastSeq_cons]
      exact le_trans (ih e h) (le_max_right _ _)

/-- maxSeqEntry returns none exactly on the empty result set. -/
theorem maxSeqEntry_eq_none (l : List Entry) : maxSeqEntry l = none ↔ l = [] := by
  cases l with
  | nil => simp [maxSeqEntry]
  | cons e rest =>
    simp only [maxSeqEntry]
    cases h : maxSeqEntry rest with
    | none => simp
    | some m => by_cases hgt : m.seq > e.seq <;> simp [hgt]

/-- maxSeqEntry picks an element of the result set. -/
theorem maxSeqEntry_mem (l : List Entry) (m : Entry) (h : maxSeqEntry l = some m) :
    m ∈ l := by
  induction l generalizing m with
  | nil => simp [maxSeqEntry] at h
  | cons e rest ih =>
    simp only [maxSeqEntry] at h
    cases hr : maxSeqEntry rest with
    | none =>
      rw [hr] at h
      injection h with h
      rw [← h]
      exact List.mem_cons_self _ _
    | some m' =>
      rw [hr] at h
      dsimp only at h
      by_cases hgt : m'.seq > e.seq
      · rw [if_pos hgt] at h
        injection h with h
        rw [← h]
        exact List.mem_cons_of_mem _ (ih m' hr)
      · rw [if_neg hgt] at h
        injection h with h
        rw [← h]
        exact List.mem_cons_self _ _

/-- maxSeqEntry dominates the seq of every element of the result set. -/
theorem maxSeqEntry_le (l : List Entry) (m : Entry) (h : maxSeqEntry l = some m) :
    ∀ x ∈ l, x.seq ≤ m.seq := by
  induction l generalizing m with
  | nil => simp
  | cons e rest ih =>
    intro x hx
    simp only [maxSeqEntry] at h
    cases hr : maxSeqEntry rest with
    | none =>
      rw [hr] at h
      injection h with h
      have hrest : rest = [] := (maxSeqEntry_eq_none rest).mp hr
      subst hrest
      rcases List.mem_cons.mp hx with hxe | hxe
      · rw [hxe, ← h]
      · simp at hxe
    | some m' =>
      rw [hr] at h
      dsimp only at h
      by_cases hgt : m'.seq > e.seq
      · rw [if_pos hgt] at h
        injection h with h
        subst h
        rcases List.mem_cons.mp hx with hxe | hxe
        · rw [hxe]
          exact le_of_lt hgt
        · exact ih _ hr x hxe
      · rw [if_neg hgt] at h
        injection h with h
        subst h
        rcases List.mem_cons.mp hx with hxe | hxe
        · rw [hxe]
        · exact le_trans (ih m' hr x hxe) (not_lt.mp hgt)

/-- The writer's lookup filter keeps exactly the identity matches (the
seq ≤ current-max conjunct holds for every stored entry). -/
theorem mem_writeLabel_filter (log : List Entry) (E : Entry) (x : Entry) :
    x ∈ log.filter (fun y => sameIdent y E && decide (y.seq ≤ lastSeq log)) ↔
      x ∈ log ∧ sameIdent x E = true := by
  rw [List.mem_filter]
  constructor
  · rintro ⟨h1, h2⟩
    rw [Bool.and_eq_true] at h2
    exact ⟨h1, h2.1⟩
  · rintro ⟨h1, h2⟩
    refine ⟨h1, ?_⟩
    rw [Bool.and_eq_true]
    exact ⟨h2, by simpa using seq_le_lastSeq log x h1⟩

/-- Claim C1: the writer inserts the candidate and reports a change iff
either no stored entry shares its identity tuple and the candidate is
not a negation, or the newest such entry differs from the candidate in
neg or exp; otherwise the log is untouched and no change is reported. -/
theorem C1_writeLabel_admit (log : List Entry) (E : Entry)
    (hnd : (log.map Entry.seq).Nodup) :
    ((writeLabel log E).1 = true ↔
      ((∀ L ∈ log, sameIdent L E = false) ∧ E.neg = false) ∨
      (∃ L ∈ log, sameIdent L E = true ∧
        (∀ x ∈ log, sameIdent x E = true → x.seq ≤ L.seq) ∧
        (L.neg ≠ E.neg ∨ L.exp ≠ E.exp))) ∧
    ((writeLabel log E).1 = true →
      (writeLabel log E).2 = log ++ [{ E with seq := lastSeq log + 1 }]) ∧
    ((writeLabel log E).1 = false → (writeLabel log E).2 = log) := by
  have hfl := mem_writeLabel_filter log E
  cases hf : maxSeqEntry (log.filter (fun y => sameIdent y E && decide (y.seq ≤ lastSeq log))) with
  | none =>
    have hempty : log.filter (fun y => sameIdent y E && decide (y.seq ≤ lastSeq log)) = [] :=
      (maxSeqEntry_eq_none _).mp hf
    have hnomatch : ∀ L ∈ log, sameIdent L E = false := by
      intro L hL
      cases hid : sameIdent L E
      · rfl
      · have : L ∈ log.filter (fun y => sameIdent y E && decide (y.seq ≤ lastSeq log)) :=
          (hfl L).mpr ⟨hL, hid⟩
        rw [hempty] at this
        simp at this
    have hw : writeLabel log E =
        if E.neg then (false, log)
        else (true, log ++ [{ E with seq := lastSeq log + 1 }]) := by
      simp only [writeLabel, hf]
    cases hEn : E.neg
    · rw [hEn] at hw
      simp only [Bool.false_eq_true, if_false] at hw
      refine ⟨?_, ?_, ?_⟩
      · exact iff_of_true (by simp [hw]) (Or.inl ⟨hnomatch, rfl⟩)
      · intro _
        simp [hw]
      · intro hcon
        simp [hw] at hcon
    · rw [hEn] at hw
      simp only [if_true] at hw
      refine ⟨?_, ?_, ?_⟩
      · refine iff_of_false (by simp [hw]) ?_
        rintro (⟨_, hcon⟩ | ⟨L, hL, hid, _, _⟩)
        · exact absurd hcon (by simp)
        · have hLf := hnomatch L hL
          rw [hid] at hLf
          exact absurd hLf (by simp)
      · intro hcon
        simp [hw] at hcon
      · intro _
        simp [hw]
  | some m =>
    obtain ⟨hmmem, hmid⟩ := (hfl m).mp (maxSeqEntry_mem _ m hf)
    have hmax : ∀ x ∈ log, sameIdent x E = true → x.seq ≤ m.seq := by
      intro x hx hxid
      exact maxSeqEntry_le _ m hf x ((hfl x).mpr ⟨hx, hxid⟩)
    have hw : writeLabel log E =
        if !((m.neg != E.neg) || (m.exp != E.exp)) then (false, log)
        else (true, log ++ [{ E with seq := lastSeq log + 1 }]) := by
      simp only [writeLabel, hf]
    by_cases hc : ((m.neg != E.neg) || (m.exp != E.exp)) = true
    · have hdiff : m.neg ≠ E.neg ∨ m.exp ≠ E.exp := by
        have h2 := hc
        simp only [Bool.or_eq_true, bne_iff_ne] at h2
        exact h2
      rw [hc] at hw
      simp only [Bool.not_true, Bool.false_eq_true, if_false] at hw
      refine ⟨?_, ?_, ?_⟩
      · exact iff_of_true (by simp [hw]) (Or.inr ⟨m, hmmem, hmid, hmax, hdiff⟩)
      · intro _
        simp [hw]
      · intro hcon
        simp [hw] at hcon
    · have hc' : ((m.neg != E.neg) || (m.exp != E.exp)) = false := by
        cases h : ((m.neg != E.neg) || (m.exp != E.exp))
        · rfl
        · exact absurd h hc
      have hsame : m.neg = E.neg ∧ m.exp = E.exp := by
        rw [Bool.or_eq_false_iff] at hc'
        exact ⟨by simpa using hc'.1, by simpa using hc'.2⟩
      rw [hc'] at hw
      simp only [Bool.not_false, if_true] at hw
      refine ⟨?_, ?_, ?_⟩
      · refine iff_of_false (by simp [hw]) ?_
        rintro (⟨hno, _⟩ | ⟨L, hL, hid, hLmax, hLdiff⟩)
        · have hmf := hno m hmmem
          rw [hmid] at hmf
          exact absurd hmf (by simp)
        · have hseq : L.seq = m.seq :=
            le_antisymm (hmax L hL hid) (hLmax m hmmem hmid)
          have hLm : L = m :=
            List.inj_on_of_nodup_map hnd hL hmmem hseq
          rw [hLm] at hLdiff
          rcases hLdiff with h | h
          · exact h hsame.1
          · exact h hsame.2
      · intro hcon
        simp [hw] at hcon
      · intro _
        simp [hw]

/-- Claim C1 witness. -/
theorem C1_writeLabel_admit_witness :
    ((([] : List Entry).map Entry.seq).Nodup) ∧
    (((writeLabel [] entryA).1 = true ↔
      ((∀ L ∈ ([] : List Entry), sameIdent L entryA = false) ∧ entryA.neg = false) ∨
      (∃ L ∈ ([] : List Entry), sameIdent L entryA = true ∧
        (∀ x ∈ ([] : List Entry), sameIdent x entryA = true → x.seq ≤ L.seq) ∧
        (L.neg ≠ entryA.neg ∨ L.exp ≠ entryA.exp))) ∧
    ((writeLabel [] entryA).1 = true →
      (writeLabel [] entryA).2 = [] ++ [{ entryA with seq := lastSeq [] + 1 }]) ∧
    ((writeLabel [] entryA).1 = false → (writeLabel [] entryA).2 = [])) :=
  ⟨by simp, C1_writeLabel_admit [] entryA (by simp)⟩

/-- A writeLabel call that reports no change returns the log as is. -/
theorem writeLabel_noop_eq (log : List Entry) (E : Entry) (l₂ : List Entry)
    (h : writeLabel log E = (false, l₂)) : l₂ = log := by
  simp only [writeLabel] at h
  split at h
  · injection h with h1 h2
    exact h2.symm
  · injection h with h1 h2
    exact absurd h1.symm (by simp)

/-- Any log produced by writeLabel extends the old one by at most the
candidate entry, whose src field is the candidate's. -/
theorem writeLabel_src_sub (log : List Entry) (E : Entry) (c : Bool) (l₂ : List Entry)
    (h : writeLabel log E = (c, l₂)) : ∀ e ∈ l₂, e ∈ log ∨ e.src = E.src := by
  simp only [writeLabel] at h
  split at h
  · injection h with h1 h2
    intro e he
    rw [← h2] at he
    exact Or.inl he
  · injection h with h1 h2
    intro e he
    rw [← h2] at he
    rcases List.mem_append.mp he with hm | hm
    · exact Or.inl hm
    · rw [List.mem_singleton.mp hm]
      exact Or.inr rfl

/-- Claim C5: an AddLabel call that reports no change and no error
leaves the log byte-identical: same entries, same maximum seq, and the
same result for every query. -/
theorem C5_noop_preserves_log (did : String) (allowed : List String) (now : String)
    (log : List Entry) (label : Label) (log₂ : List Entry)
    (h : addLabel did allowed now log label = Except.ok (false, log₂)) :
    log₂ = log ∧ lastSeq log₂ = lastSeq log ∧
      ∀ req : QueryReq, query log₂ req = query log req := by
  simp only [addLabel] at h
  by_cases hallow : (decide (allowed.length > 0) && !allowed.contains label.val) = true
  · rw [if_pos hallow] at h
    exact Except.noConfusion h
  · rw [if_neg hallow] at h
    by_cases hsrc : (if label.src = "" then did else label.src) = ""
    · rw [if_pos hsrc] at h
      exact Except.noConfusion h
    · rw [if_neg hsrc] at h
      injection h with h
      have hlog : log₂ = log := writeLabel_noop_eq _ _ _ h
      exact ⟨hlog, by rw [hlog], fun req => by rw [hlog]⟩

/-- Claim C5 witness. -/
theorem C5_noop_preserves_log_witness :
    addLabel ("did:example") [] ("T") [entryA] labelDupA = Except.ok (false, [entryA]) ∧
      ([entryA] = [entryA] ∧ lastSeq [entryA] = lastSeq [entryA] ∧
        ∀ req : QueryReq, query [entryA] req = query [entryA] req) :=
  ⟨rfl, C5_noop_preserves_log ("did:example") [] ("T") [entryA] labelDupA [entryA] rfl⟩

/-- Claim C4, behaviour of the code at the failing input: with
allow-list [good] configured, AddLabel rejects the negation labelNegOther
(val other, neg true) instead of letting it bypass the allow-list. -/
theorem C4_negation_rejected_by_allowlist :
    labelNegOther.neg = some true ∧
      addLabel ("did:example") [("good")] ("T") [] labelNegOther =
        Except.error ("we are not allowed to apply the label") :=
  ⟨rfl, rfl⟩

/-- Claim C7 counterexample: with no allow-list configured, AddLabel
admits a label with an empty val and stores an entry whose val is the
empty string. -/
theorem C7_empty_val_admitted :
    addLabel ("did:example") [] ("T") [] labelEmptyVal =
      Except.ok (true, [entryEmptyVal]) ∧
      entryEmptyVal.val = "" ∧ entryEmptyVal.src = "did:example" :=
  ⟨rfl, rfl, rfl⟩

/-- Claim C7 (amended): every entry a successful AddLabel call leaves
in the log either was already there or carries a non-empty src, and a
successful call with an empty server identity implies the label carried
its own non-empty src; val is not validated for non-emptiness. -/
theorem C7_amended_src_nonempty (did : String) (allowed : List String) (now : String)
    (log : List Entry) (label : Label) (changed : Bool) (log₂ : List Entry)
    (h : addLabel did allowed now log label = Except.ok (changed, log₂)) :
    (∀ e ∈ log₂, e ∈ log ∨ e.src ≠ "") ∧ (did = "" → label.src ≠ "") := by
  simp only [addLabel] at h
  by_cases hallow : (decide (allowed.length > 0) && !allowed.contains label.val) = true
  · rw [if_pos hallow] at h
    exact Except.noConfusion h
  · rw [if_neg hallow] at h
    by_cases hsrc : (if label.src = "" then did else label.src) = ""
    · rw [if_pos hsrc] at h
      exact Except.noConfusion h
    · rw [if_neg hsrc] at h
      injection h with h
      constructor
      · intro e he
        rcases writeLabel_src_sub _ _ _ _ h e he with hm | hm
        · exact Or.inl hm
        · refine Or.inr ?_
          rw [hm]
          exact hsrc
      · intro hdid hlsrc
        rw [hlsrc, if_pos rfl, hdid] at hsrc
        exact hsrc rfl

/-- Claim C7 witness (for the amended statement). -/
theorem C7_amended_src_nonempty_witness :
    addLabel ("did:example") [] ("T") [] labelEmptyVal = Except.ok (true, [entryEmptyVal]) ∧
      ((∀ e ∈ [entryEmptyVal], e ∈ ([] : List Entry) ∨ e.src ≠ "") ∧
        ("did:example" = "" → labelEmptyVal.src ≠ "")) :=
  ⟨rfl, C7_amended_src_nonempty ("did:example") [] ("T") [] labelEmptyVal true [entryEmptyVal] rfl⟩

/-- Claim C3, behaviour of the code at the failing input: subscribing
with cursor 0 over a log holding the entry at seq 1 delivers that entry
during catch-up, and the live-tail wake-up that follows the write of
seq 2 re-sends it, because the wake-up scan filters on seq greater than
the original cursor instead of the last sent seq; the entry at seq 1 is
delivered twice on one connection. -/
theorem C3_wake_resends_from_cursor :
    streamEntries [entryA] 0 [[entryA, entryB]] = [entryA, entryA, entryB] ∧
      (streamEntries [entryA] 0 [[entryA, entryB]]).count entryA = 2 :=
  ⟨rfl, rfl⟩

/-- Claim C6: a positive cursor over an empty store, or one beyond
every stored seq, yields exactly one error frame whose bytes are the
header A1 62 6F 70 20 followed by the FutureCursor body, after which
the connection closes with no label frames; cursor 0 on an empty store
sends nothing and proceeds to live tail. -/
theorem C6_future_cursor_frame (log : List Entry) (C : Int) :
    (0 < C → (log = [] ∨ ∀ e ∈ log, e.seq < C) →
      streamInit log C =
        ([Frame.err ([0xA1, 0x62, 0x6F, 0x70, 0x20] ++
          [0xA1, 0x65, 0x65, 0x72, 0x72, 0x6F, 0x72,
           0x6C, 0x46, 0x75, 0x74, 0x75, 0x72, 0x65, 0x43, 0x75, 0x72, 0x73, 0x6F, 0x72])],
         false)) ∧
    (C = 0 → log = [] → streamInit log C = ([], true)) := by
  constructor
  · intro hC hcond
    have hfc : isFutureCursor log C = true := by
      rw [isFutureCursor]
      cases hemp : log.isEmpty
      · rw [if_neg (by simp [hemp])]
        rcases hcond with h | h
        · rw [h] at hemp
          simp at hemp
        · rw [List.isEmpty_iff, List.filter_eq_nil_iff]
          intro e he
          simp only [decide_eq_true_eq]
          exact not_le_of_lt (h e he)
      · rw [if_pos (by simp [hemp])]
        simp [hC]
    rw [streamInit, if_pos (le_of_lt hC), if_pos hfc]
    rfl
  · intro hC0 hlog
    rw [hC0, hlog]
    rfl

/-- Claim C6 witness. -/
theorem C6_future_cursor_frame_witness :
    streamInit [] 1 =
        ([Frame.err ([0xA1, 0x62, 0x6F, 0x70, 0x20] ++
          [0xA1, 0x65, 0x65, 0x72, 0x72, 0x6F, 0x72,
           0x6C, 0x46, 0x75, 0x74, 0x75, 0x72, 0x65, 0x43, 0x75, 0x72, 0x73, 0x6F, 0x72])],
         false) ∧
      streamInit [] 0 = ([], true) :=
  ⟨(C6_future_cursor_frame [] 1).1 (by decide) (Or.inl rfl),
   (C6_future_cursor_frame [] 0).2 rfl rfl⟩

/-- Encoding zero gives the empty byte string, for any fuel. -/
theorem natToBEBytesAux_zero (f : Nat) : natToBEBytesAux f 0 = [] := by
  cases f <;> simp [natToBEBytesAux]

/-- Unfolding the encoder on a positive value with positive fuel. -/
theorem natToBEBytesAux_succ (f n : Nat) (hn : n ≠ 0) :
    natToBEBytesAux (f + 1) n = natToBEBytesAux f (n / 256) ++ [n % 256] := by
  simp [natToBEBytesAux, hn]

/-- Appending one byte multiplies the big-endian value by 256. -/
theorem beBytesToNat_append_singleton (xs : List Nat) (c : Nat) :
    beBytesToNat (xs ++ [c]) = 256 * beBytesToNat xs + c := by
  induction xs with
  | nil => simp [beBytesToNat]
  | cons x xs ih =>
    show beBytesToNat (x :: (xs ++ [c])) = 256 * beBytesToNat (x :: xs) + c
    simp only [beBytesToNat]
    rw [ih, List.length_append]
    simp only [List.length_singleton, List.length_cons, List.length_nil]
    ring

/-- Decoding the encoder output recovers the value (fuel form). -/
theorem beBytesToNat_natToBEBytesAux (f : Nat) :
    ∀ n, n ≤ f → beBytesToNat (natToBEBytesAux f n) = n := by
  induction f with
  | zero =>
    intro n hn
    have h0 : n = 0 := Nat.le_zero.mp hn
    subst h0
    simp [natToBEBytesAux_zero, beBytesToNat]
  | succ f ih =>
    intro n hn
    by_cases h0 : n = 0
    · subst h0
      simp [natToBEBytesAux_zero, beBytesToNat]
    · rw [natToBEBytesAux_succ f n h0, beBytesToNat_append_singleton,
        ih (n / 256) ?_]
      · exact Nat.div_add_mod n 256
      · have hlt : n / 256 < n := Nat.div_lt_self (Nat.pos_of_ne_zero h0) (by norm_num)
        omega

/-- Every emitted byte is below 256. -/
theorem natToBEBytesAux_bytes_lt (f : Nat) :
    ∀ n, ∀ c ∈ natToBEBytesAux f n, c < 256 := by
  induction f with
  | zero =>
    intro n c hc
    simp [natToBEBytesAux] at hc
  | succ f ih =>
    intro n c hc
    by_cases h0 : n = 0
    · subst h0
      rw [natToBEBytesAux_zero] at hc
      simp at hc
    · rw [natToBEBytesAux_succ f n h0] at hc
      rcases List.mem_append.mp hc with h | h
      · exact ih _ c h
      · rw [List.mem_singleton.mp h]
        exact Nat.mod_lt _ (by norm_num)

/-- A value below 256 ^ k encodes into at most k bytes. -/
theorem natToBEBytesAux_length_le (f : Nat) :
    ∀ n k, n ≤ f → n < 256 ^ k → (natToBEBytesAux f n).length ≤ k := by
  induction f with
  | zero =>
    intro n k hn _
    have h0 : n = 0 := Nat.le_zero.mp hn
    subst h0
    simp [natToBEBytesAux_zero]
  | succ f ih =>
    intro n k hn hk
    by_cases h0 : n = 0
    · subst h0
      simp [natToBEBytesAux_zero]
    · rw [natToBEBytesAux_succ f n h0]
      cases k with
      | zero =>
        rw [pow_zero] at hk
        omega
      | succ k =>
        rw [List.length_append, List.length_singleton]
        have hd : n / 256 < 256 ^ k := by
          rw [Nat.div_lt_iff_lt_mul (by norm_num : 0 < 256)]
          calc n < 256 ^ (k + 1) := hk
            _ = 256 ^ k * 256 := by ring
        have hf : n / 256 ≤ f := by
          have hlt : n / 256 < n := Nat.div_lt_self (Nat.pos_of_ne_zero h0) (by norm_num)
          omega
        have := ih (n / 256) k hf hd
        omega

/-- The encoded value is below 256 to the number of bytes. -/
theorem natToBEBytesAux_lt_pow (f : Nat) :
    ∀ n, n ≤ f → n < 256 ^ (natToBEBytesAux f n).length := by
  induction f with
  | zero =>
    intro n hn
    have h0 : n = 0 := Nat.le_zero.mp hn
    subst h0
    simp [natToBEBytesAux_zero]
  | succ f ih =>
    intro n hn
    by_cases h0 : n = 0
    · subst h0
      simp [natToBEBytesAux_zero]
    · rw [natToBEBytesAux_succ f n h0, List.length_append, List.length_singleton]
      have hf : n / 256 ≤ f := by
        have hlt : n / 256 < n := Nat.div_lt_self (Nat.pos_of_ne_zero h0) (by norm_num)
        omega
      have hih := ih (n / 256) hf
      have hmod : n % 256 < 256 := Nat.mod_lt _ (by norm_num)
      have key : n < 256 * 256 ^ (natToBEBytesAux f (n / 256)).length := by
        calc n = 256 * (n / 256) + n % 256 := (Nat.div_add_mod n 256).symm
          _ < 256 * (n / 256) + 256 := by omega
          _ = 256 * (n / 256 + 1) := by ring
          _ ≤ 256 * 256 ^ (natToBEBytesAux f (n / 256)).length :=
            Nat.mul_le_mul_left _ (Nat.succ_le_of_lt hih)
      calc n < 256 * 256 ^ (natToBEBytesAux f (n / 256)).length := key
        _ = 256 ^ ((natToBEBytesAux f (n / 256)).length + 1) := by ring

/-- A positive value encodes into at least one byte. -/
theorem natToBEBytesAux_ne_nil (f n : Nat) (h0 : n ≠ 0) (hn : n ≤ f) :
    natToBEBytesAux f n ≠ [] := by
  cases f with
  | zero => omega
  | succ f =>
    rw [natToBEBytesAux_succ f n h0]
    simp

/-- Minimality: the leading byte of a positive value is non-zero. -/
theorem natToBEBytesAux_headD (f : Nat) :
    ∀ n, n ≠ 0 → n ≤ f → (natToBEBytesAux f n).headD 0 ≠ 0 := by
  induction f with
  | zero =>
    intro n h0 hn
    omega
  | succ f ih =>
    intro n h0 hn
    rw [natToBEBytesAux_succ f n h0]
    have hdle : n / 256 ≤ f := by
      have hlt : n / 256 < n := Nat.div_lt_self (Nat.pos_of_ne_zero h0) (by norm_num)
      omega
    by_cases hd : n / 256 = 0
    · rw [hd, natToBEBytesAux_zero, List.nil_append]
      have hlt256 : n < 256 := by
        by_contra hge
        push_neg at hge
        have h1 : 1 ≤ n / 256 := (Nat.one_le_div_iff (by norm_num)).mpr hge
        omega
      simp only [List.headD_cons]
      rw [Nat.mod_eq_of_lt hlt256]
      exact h0
    · cases hxs : natToBEBytesAux f (n / 256) with
      | nil => exact absurd hxs (natToBEBytesAux_ne_nil f (n / 256) hd hdle)
      | cons y ys =>
        simp only [List.cons_append, List.headD_cons]
        have hihd := ih (n / 256) hd hdle
        rw [hxs] at hihd
        simpa using hihd

/-- The value of a byte string is below 256 to its length. -/
theorem beBytesToNat_lt (l : List Nat) (h : ∀ c ∈ l, c < 256) :
    beBytesToNat l < 256 ^ l.length := by
  induction l with
  | nil => simp [beBytesToNat]
  | cons c rest ih =>
    simp only [beBytesToNat, List.length_cons]
    have hc : c < 256 := h c (List.mem_cons_self _ _)
    have hr : beBytesToNat rest < 256 ^ rest.length :=
      ih (fun x hx => h x (List.mem_cons_of_mem _ hx))
    calc c * 256 ^ rest.length + beBytesToNat rest
        < c * 256 ^ rest.length + 256 ^ rest.length := Nat.add_lt_add_left hr _
      _ = (c + 1) * 256 ^ rest.length := by ring
      _ ≤ 256 * 256 ^ rest.length := Nat.mul_le_mul_right _ (by omega)
      _ = 256 ^ (rest.length + 1) := by ring

/-- Equal-length byte strings with bytes below 256 compare
lexicographically as their big-endian values. -/
theorem lex_of_beBytesToNat_lt (a : List Nat) :
    ∀ b : List Nat, a.length = b.length →
      (∀ c ∈ a, c < 256) → (∀ c ∈ b, c < 256) →
      beBytesToNat a < beBytesToNat b → List.Lex (· < ·) a b := by
  induction a with
  | nil =>
    intro b hlen _ _ hv
    have hb : b = [] := List.length_eq_zero.mp hlen.symm
    subst hb
    simp [beBytesToNat] at hv
  | cons x a ih =>
    intro b hlen ha hb hv
    cases b with
    | nil => simp at hlen
    | cons y b =>
      simp only [List.length_cons, Nat.succ.injEq] at hlen
      rcases Nat.lt_trichotomy x y with hxy | hxy | hxy
      · exact List.Lex.rel hxy
      · subst hxy
        refine List.Lex.cons ?_
        refine ih b hlen (fun c hc => ha c (List.mem_cons_of_mem _ hc))
          (fun c hc => hb c (List.mem_cons_of_mem _ hc)) ?_
        simp only [beBytesToNat] at hv
        rw [hlen] at hv
        exact Nat.lt_of_add_lt_add_left hv
      · exfalso
        simp only [beBytesToNat] at hv
        rw [hlen] at hv
        have hvb : beBytesToNat b < 256 ^ b.length :=
          beBytesToNat_lt b (fun c hc => hb c (List.mem_cons_of_mem _ hc))
        have h1 : y * 256 ^ b.length + beBytesToNat b < (y + 1) * 256 ^ b.length := by
          calc y * 256 ^ b.length + beBytesToNat b
              < y * 256 ^ b.length + 256 ^ b.length := Nat.add_lt_add_left hvb _
            _ = (y + 1) * 256 ^ b.length := by ring
        have h2 : (y + 1) * 256 ^ b.length ≤ x * 256 ^ b.length :=
          Nat.mul_le_mul_right _ (by omega)
        have hcon : x * 256 ^ b.length + beBytesToNat a
            < x * 256 ^ b.length + beBytesToNat a := by
          calc x * 256 ^ b.length + beBytesToNat a
              < y * 256 ^ b.length + beBytesToNat b := hv
            _ < (y + 1) * 256 ^ b.length := h1
            _ ≤ x * 256 ^ b.length := h2
            _ ≤ x * 256 ^ b.length + beBytesToNat a := Nat.le_add_right _ _
        exact absurd hcon (lt_irrefl _)

/-- Roundtrip for natToBEBytes. -/
theorem beBytesToNat_natToBEBytes (n : Nat) : beBytesToNat (natToBEBytes n) = n :=
  beBytesToNat_natToBEBytesAux n n (le_refl n)

/-- Value bound for natToBEBytes. -/
theorem natToBEBytes_lt_pow (n : Nat) : n < 256 ^ (natToBEBytes n).length :=
  natToBEBytesAux_lt_pow n n (le_refl n)

/-- Length bound for natToBEBytes. -/
theorem natToBEBytes_length_le (n k : Nat) (h : n < 256 ^ k) :
    (natToBEBytes n).length ≤ k :=
  natToBEBytesAux_length_le n n k (le_refl n) h

/-- Byte bound for natToBEBytes. -/
theorem natToBEBytes_bytes_lt (n : Nat) : ∀ c ∈ natToBEBytes n, c < 256 :=
  fun c hc => natToBEBytesAux_bytes_lt n n c hc

/-- A positive value has a non-empty encoding. -/
theorem natToBEBytes_ne_nil (n : Nat) (h0 : n ≠ 0) : natToBEBytes n ≠ [] :=
  natToBEBytesAux_ne_nil n n h0 (le_refl n)

/-- A positive value has a non-zero leading byte. -/
theorem natToBEBytes_headD (n : Nat) (h0 : n ≠ 0) : (natToBEBytes n).headD 0 ≠ 0 :=
  natToBEBytesAux_headD n n h0 (le_refl n)

/-- Encoded length is monotone in the value. -/
theorem natToBEBytes_length_mono (m n : Nat) (h : m ≤ n) :
    (natToBEBytes m).length ≤ (natToBEBytes n).length :=
  natToBEBytes_length_le m _ (lt_of_le_of_lt h (natToBEBytes_lt_pow n))

/-- Decode inverts encode on the int64 key range. -/
theorem decodeKey_encodeKey (n : Nat) (h1 : 1 ≤ n) (h2 : n ≤ 2 ^ 63 - 1) :
    decodeKey (encodeKey n) = Except.ok n := by
  have hlen8 : (natToBEBytes n).length ≤ 8 := by
    apply natToBEBytes_length_le
    calc n ≤ 2 ^ 63 - 1 := h2
      _ < 256 ^ 8 := by norm_num
  have hmod : (natToBEBytes n).length % 256 = (natToBEBytes n).length :=
    Nat.mod_eq_of_lt (by omega)
  have hne : natToBEBytes n ≠ [] := natToBEBytes_ne_nil n (by omega)
  have hlpos : ¬(natToBEBytes n).length = 0 := by
    intro hcon
    exact hne (List.length_eq_zero.mp hcon)
  have hn63 : n < 2 ^ 63 := by
    calc n ≤ 2 ^ 63 - 1 := h2
      _ < 2 ^ 63 := by norm_num
  simp only [encodeKey, decodeKey]
  rw [hmod]
  rw [if_neg (by simp)]
  rw [if_neg hlpos]
  rw [if_neg (natToBEBytes_headD n (by omega))]
  rw [beBytesToNat_natToBEBytes]
  rw [if_neg (not_le_of_lt hn63)]

/-- Encode preserves order, as lexicographic order on the byte keys. -/
theorem encodeKey_lex (m n : Nat) (h1 : 1 ≤ m) (h2 : n ≤ 2 ^ 63 - 1) (hmn : m < n) :
    List.Lex (· < ·) (encodeKey m) (encodeKey n) := by
  have hm8 : (natToBEBytes m).length ≤ 8 := by
    apply natToBEBytes_length_le
    calc m ≤ n := le_of_lt hmn
      _ ≤ 2 ^ 63 - 1 := h2
      _ < 256 ^ 8 := by norm_num
  have hn8 : (natToBEBytes n).length ≤ 8 := by
    apply natToBEBytes_length_le
    calc n ≤ 2 ^ 63 - 1 := h2
      _ < 256 ^ 8 := by norm_num
  have hmodm : (natToBEBytes m).length % 256 = (natToBEBytes m).length :=
    Nat.mod_eq_of_lt (by omega)
  have hmodn : (natToBEBytes n).length % 256 = (natToBEBytes n).length :=
    Nat.mod_eq_of_lt (by omega)
  have hlenle : (natToBEBytes m).length ≤ (natToBEBytes n).length :=
    natToBEBytes_length_mono m n (le_of_lt hmn)
  rw [encodeKey, encodeKey, hmodm, hmodn]
  rcases lt_or_eq_of_le hlenle with hlt | heq
  · exact List.Lex.rel hlt
  · rw [heq]
    refine List.Lex.cons ?_
    refine lex_of_beBytesToNat_lt _ _ heq (natToBEBytes_bytes_lt m)
      (natToBEBytes_bytes_lt n) ?_
    rw [beBytesToNat_natToBEBytes, beBytesToNat_natToBEBytes]
    exact hmn

/-- Claim C8: on 1 ≤ n ≤ 2 ^ 63 - 1, decodeKey inverts encodeKey;
encodeKey is strictly monotone for lexicographic byte order; and
decodeKey rejects the empty string, a length byte inconsistent with the
input length, a zero-length body, and a leading zero byte. -/
theorem C8_key_codec :
    (∀ n : Nat, 1 ≤ n → n ≤ 2 ^ 63 - 1 → decodeKey (encodeKey n) = Except.ok n) ∧
    (∀ m n : Nat, 1 ≤ m → n ≤ 2 ^ 63 - 1 → m < n →
      List.Lex (· < ·) (encodeKey m) (encodeKey n)) ∧
    isErr (decodeKey []) = true ∧
    (∀ (l : Nat) (rest : List Nat), rest.length ≠ l →
      isErr (decodeKey (l :: rest)) = true) ∧
    (∀ rest : List Nat, isErr (decodeKey ((0 : Nat) :: rest)) = true) ∧
    (∀ (l : Nat) (rest : List Nat), isErr (decodeKey (l :: 0 :: rest)) = true) := by
  refine ⟨decodeKey_encodeKey, encodeKey_lex, rfl, ?_, ?_, ?_⟩
  · intro l rest h
    simp only [decodeKey]
    rw [if_pos h]
    rfl
  · intro rest
    simp only [decodeKey]
    by_cases h : rest.length ≠ 0
    · rw [if_pos h]
      rfl
    · rw [if_neg h, if_pos trivial]
      rfl
  · intro l rest
    simp only [decodeKey]
    by_cases h1 : (0 :: rest).length ≠ l
    · rw [if_pos h1]
      rfl
    · rw [if_neg h1]
      have hl : l = rest.length + 1 := by
        push_neg at h1
        simpa using h1.symm
      rw [if_neg (by omega)]
      rw [if_pos (by simp)]
      rfl

/-- Claim C8 witness. -/
theorem C8_key_codec_witness :
    decodeKey (encodeKey 5) = Except.ok 5 ∧
      List.Lex (· < ·) (encodeKey 3) (encodeKey 5) ∧
      isErr (decodeKey [3, 7]) = true ∧
      isErr (decodeKey [0]) = true ∧
      isErr (decodeKey [2, 0, 5]) = true :=
  ⟨C8_key_codec.1 5 (by norm_num) (by norm_num),
   C8_key_codec.2.1 3 5 (by norm_num) (by norm_num) (by norm_num),
   C8_key_codec.2.2.2.1 3 [7] (by simp),
   C8_key_codec.2.2.2.2.1 [],
   C8_key_codec.2.2.2.2.2 2 [5]⟩

end Labeler
